import Mathlib

set_option maxRecDepth 100000

/-!
Verification development for the lead-cleaner repository
(src/clean_leads.py).

The file embeds the core of the script as executable Lean definitions:
the name normalizer `normalize_extra`, the exact-match partition, the
similarity matcher (rapidfuzz token_sort_ratio with process.extract,
limit 3), the fuzzy-review merge, and the final branch of the app body.
Scores are modelled as exact rationals; rapidfuzz computes the same
values in double precision, and every comparison performed by the code
(against 75 and 100) agrees between the two representations on the
inputs considered here.
-/

/-! ## Character-level helpers -/

/-- The characters matched by the Python regex class `\s` (and stripped
by `str.strip`) once the text has been reduced to ASCII: space, tab,
newline, vertical tab, form feed, carriage return and the four
ASCII separator control characters 0x1c-0x1f. -/
def isPySpaceChar (c : Char) : Bool :=
  c == ' ' || c == '\t' || c == '\n' || c == '\x0b' || c == '\x0c' || c == '\r' ||
  c == '\x1c' || c == '\x1d' || c == '\x1e' || c == '\x1f'

/-- The characters matched by the Python regex class `\w` on ASCII text:
letters, digits and the underscore. -/
def isPyWordChar (c : Char) : Bool :=
  c.isAlphanum || c == '_'

/-- The 26 uppercase ASCII letters paired with their lowercase forms:
the exact set of characters changed by Python `str.lower` on ASCII
text. -/
def upperLowerPairs : List (Char × Char) :=
  [('A','a'),('B','b'),('C','c'),('D','d'),('E','e'),('F','f'),('G','g'),
   ('H','h'),('I','i'),('J','j'),('K','k'),('L','l'),('M','m'),('N','n'),
   ('O','o'),('P','p'),('Q','q'),('R','r'),('S','s'),('T','t'),('U','u'),
   ('V','v'),('W','w'),('X','x'),('Y','y'),('Z','z')]

/-- Python `str.lower` restricted to ASCII text (the script lowercases
only after the ASCII-ignore encoding step, so only the 26 uppercase
ASCII letters can change). -/
def lowerChar (c : Char) : Char :=
  match upperLowerPairs.find? (fun pr => pr.1 == c) with
  | some pr => pr.2
  | none => c

/-- Accented Latin letters paired with the ASCII base letter left by
NFKD decomposition followed by ASCII-ignore encoding. -/
def accentFoldTable : List (Char × Char) :=
  [('à','a'),('á','a'),('â','a'),('ã','a'),('ä','a'),('å','a'),
   ('À','A'),('Á','A'),('Â','A'),('Ã','A'),('Ä','A'),('Å','A'),
   ('è','e'),('é','e'),('ê','e'),('ë','e'),
   ('È','E'),('É','E'),('Ê','E'),('Ë','E'),
   ('ì','i'),('í','i'),('î','i'),('ï','i'),
   ('Ì','I'),('Í','I'),('Î','I'),('Ï','I'),
   ('ò','o'),('ó','o'),('ô','o'),('õ','o'),('ö','o'),
   ('Ò','O'),('Ó','O'),('Ô','O'),('Õ','O'),('Ö','O'),
   ('ù','u'),('ú','u'),('û','u'),('ü','u'),
   ('Ù','U'),('Ú','U'),('Û','U'),('Ü','U'),
   ('ñ','n'),('Ñ','N'),('ç','c'),('Ç','C')]

/-- One character of `unicodedata.normalize("NFKD", text)` followed by
`text.encode("ascii", "ignore")`: an ASCII character is its own
decomposition and survives; a precomposed Latin letter with a diacritic
decomposes into its ASCII base letter plus combining marks, of which
only the base letter survives the ASCII filter.  The table lists the
accented Latin letters relevant to this development; remaining
non-ASCII characters (which have no ASCII base in their decomposition)
are dropped by the ASCII-ignore step. -/
def asciiFoldChar (c : Char) : List Char :=
  if c.toNat < 128 then [c]
  else
    match accentFoldTable.find? (fun pr => pr.1 == c) with
    | some pr => [pr.2]
    | none => []

/-- NFKD decomposition followed by ASCII-ignore encoding on a character
list (lines 13-15 of clean_leads.py). -/
def asciiFold (l : List Char) : List Char :=
  l.flatMap asciiFoldChar

/-- The substitution `re.sub(r"[^\w\s]", "", text)` (line 17 of
clean_leads.py): every character that is neither a word character nor
whitespace is deleted (replaced by the empty string). -/
def removeNonWord (l : List Char) : List Char :=
  l.filter (fun c => isPyWordChar c || isPySpaceChar c)

/-- Worker for `collapseSpaces`; the flag records whether the previous
character belonged to a whitespace run whose single replacement space
has already been emitted. -/
def collapseAux : Bool → List Char → List Char
  | _, [] => []
  | inRun, c :: rest =>
    if isPySpaceChar c then
      if inRun then collapseAux true rest
      else ' ' :: collapseAux true rest
    else c :: collapseAux false rest

/-- The substitution `re.sub(r"\s+", " ", text)` (line 19 of
clean_leads.py): each maximal whitespace run becomes one space. -/
def collapseSpaces (l : List Char) : List Char :=
  collapseAux false l

/-- Python `str.strip`: drop leading and trailing whitespace. -/
def stripWs (l : List Char) : List Char :=
  ((l.dropWhile isPySpaceChar).reverse.dropWhile isPySpaceChar).reverse

/-- One cell of the companyName column: either a string or any
non-string value (a number, NaN, None, ...), which the normalizer maps
to the empty key. -/
inductive CellValue where
  | str (s : String)
  | nonStr
deriving DecidableEq, Repr

/-- The function `normalize_extra` of clean_leads.py, lines 9-20:
non-strings become the empty key; strings are NFKD-decomposed, encoded
to ASCII ignoring errors, stripped of non-word non-space characters,
whitespace-collapsed, stripped and lowercased. -/
def normalize_extra : CellValue → String
  | CellValue.nonStr => ""
  | CellValue.str s =>
    String.mk ((stripWs (collapseSpaces (removeNonWord (asciiFold s.data)))).map lowerChar)

/-! ## Similarity scorer: rapidfuzz fuzz.token_sort_ratio -/

/-- Python `str.split()`: split on maximal whitespace runs, discarding
empty pieces. -/
def splitWs : List Char → List (List Char)
  | [] => []
  | c :: rest =>
    if isPySpaceChar c then splitWs rest
    else
      match splitWs rest with
      | [] => [[c]]
      | w :: ws =>
        match rest with
        | [] => [[c]]
        | d :: _ => if isPySpaceChar d then [c] :: w :: ws else (c :: w) :: ws

/-- Lexicographic comparison of strings by code point, as used by
Python `sorted` on strings. -/
def lexLe : List Char → List Char → Bool
  | [], _ => true
  | _ :: _, [] => false
  | a :: as, b :: bs =>
    if a.toNat < b.toNat then true
    else if b.toNat < a.toNat then false
    else lexLe as bs

/-- Insert a token into an ascending sorted list, after any equal
elements (stable insertion). -/
def insertTok (x : List Char) : List (List Char) → List (List Char)
  | [] => [x]
  | y :: ys => if lexLe y x then y :: insertTok x ys else x :: y :: ys

/-- Stable ascending insertion sort, modelling Python `sorted`. -/
def sortToks (l : List (List Char)) : List (List Char) :=
  l.foldl (fun acc x => insertTok x acc) []

/-- The token-sort preprocessing of fuzz.token_sort_ratio: split into
whitespace tokens, sort them, join with single spaces. -/
def tokenSortJoin (l : List Char) : List Char :=
  List.intercalate [' '] (sortToks (splitWs l))

/-- One row of the longest-common-subsequence table, computed from the
previous row; `diag`, `ups` and `left` carry the neighbouring cells. -/
def lcsGo (a : Char) : List Char → Nat → List Nat → Nat → List Nat
  | [], _, _, _ => []
  | b :: bs, diag, ups, left =>
    let up := ups.headD 0
    let v := if a == b then diag + 1 else max up left
    v :: lcsGo a bs up ups.tail v

/-- Longest common subsequence length by row-wise dynamic programming. -/
def lcsLen (as bs : List Char) : Nat :=
  (as.foldl (fun prev a => 0 :: lcsGo a bs (prev.headD 0) prev.tail 0)
    (List.replicate (bs.length + 1) 0)).getLastD 0

/-- The rapidfuzz normalized InDel similarity scaled to 0-100 (the
value returned by fuzz.ratio): with total length t and longest common
subsequence length L, the score is 200 L / t; two empty strings score
100. -/
def indelScore (as bs : List Char) : ℚ :=
  if as.length + bs.length = 0 then 100
  else (200 * lcsLen as bs : ℚ) / ((as.length : ℚ) + (bs.length : ℚ))

/-- fuzz.token_sort_ratio: InDel ratio of the token-sorted forms. -/
def tokenSortScore (a b : String) : ℚ :=
  indelScore (tokenSortJoin a.data) (tokenSortJoin b.data)

/-! ## The matching pipeline (module body of clean_leads.py) -/

/-- Keep the first occurrence of each string, dropping later
duplicates; models pandas drop_duplicates and the insertion order of a
Python set built by one traversal. -/
def dedupFirstAux (seen : List String) : List String → List String
  | [] => []
  | x :: xs => if x ∈ seen then dedupFirstAux seen xs else x :: dedupFirstAux (x :: seen) xs

/-- Deduplicate a list of strings keeping first occurrences. -/
def dedupFirst (l : List String) : List String :=
  dedupFirstAux [] l

/-- The normalized client names with multiplicity; the script only ever
uses membership in this column (the set exact_normalized_set of line
46), for which the list is an equivalent model. -/
def clientKeys (clients : List CellValue) : List String :=
  clients.map normalize_extra

/-- The set client_names_set of line 53, traversed by process.extract;
the iteration order of the Python set is unspecified, modelled here as
first-occurrence order. -/
def clientNamesList (clients : List CellValue) : List String :=
  dedupFirst (clients.map normalize_extra)

/-- exact_matches_df (line 48): the lead rows whose normalized name is
in the client key set. -/
def exactRows (leads clients : List CellValue) : List CellValue :=
  leads.filter (fun r => decide (normalize_extra r ∈ clientKeys clients))

/-- filtered_leads (line 49): the lead rows that are not exact matches. -/
def filteredRows (leads clients : List CellValue) : List CellValue :=
  leads.filter (fun r => !decide (normalize_extra r ∈ clientKeys clients))

/-- filtered_unique_names (line 54): the distinct normalized names of
the non-exact lead rows, in first-occurrence order. -/
def filteredUniqueNames (leads clients : List CellValue) : List String :=
  dedupFirst ((filteredRows leads clients).map normalize_extra)

/-- A row of the matches list built in the loop of lines 56-72. -/
structure MatchCandidate where
  leadName : String
  clientName : String
  score : ℚ
deriving DecidableEq, Repr

/-- Stable descending insertion by score: a new element goes after all
elements scoring at least as high. -/
def insertByScore (x : String × ℚ) : List (String × ℚ) → List (String × ℚ)
  | [] => [x]
  | y :: ys => if x.2 ≤ y.2 then y :: insertByScore x ys else x :: y :: ys

/-- Sort candidate-score pairs by score, highest first, ties in
traversal order. -/
def sortByScoreDesc (l : List (String × ℚ)) : List (String × ℚ) :=
  l.foldl (fun acc x => insertByScore x acc) []

/-- process.extract(lead_name, client_names_set,
scorer=fuzz.token_sort_ratio, limit=3) (lines 59-64): score every
client name, order by score descending, keep the best three. -/
def extractTop3 (clients : List CellValue) (leadName : String) : List (String × ℚ) :=
  (sortByScoreDesc ((clientNamesList clients).map
    (fun m => (m, tokenSortScore leadName m)))).take 3

/-- The inner loop of lines 65-72: keep an extracted candidate iff its
score lies in the band 75 <= score < 100 and the names differ. -/
def candidatesFor (clients : List CellValue) (leadName : String) : List MatchCandidate :=
  (extractTop3 clients leadName).filterMap (fun p =>
    if 75 ≤ p.2 ∧ p.2 < 100 ∧ leadName ≠ p.1 then
      some ⟨leadName, p.1, p.2⟩
    else none)

/-- The matches list of lines 52-72: for each distinct non-exact lead
name (skipping any name in the exact set, the guard of line 57), the
band-filtered top-3 candidates. -/
def matchesList (leads clients : List CellValue) : List MatchCandidate :=
  (filteredUniqueNames leads clients).flatMap (fun n =>
    if n ∈ clientKeys clients then [] else candidatesFor clients n)

/-- A row of fuzzy_df after the merge of lines 82-87: the candidate
columns plus the original lead name recovered by the left join (none
models the NaN produced when no lead row carries the key). -/
structure FuzzyRow where
  leadName : String
  clientName : String
  score : ℚ
  originalName : Option CellValue
deriving DecidableEq, Repr

/-- The merge of lines 82-87: a left join of the candidate rows with
leads_df on the normalized name, producing one output row per matching
lead row (or a single NaN row when none matches). -/
def fuzzyRows (leads clients : List CellValue) : List FuzzyRow :=
  (matchesList leads clients).flatMap (fun c =>
    match leads.filter (fun r => decide (normalize_extra r = c.leadName)) with
    | [] => [⟨c.leadName, c.clientName, c.score, none⟩]
    | r :: rs => (r :: rs).map (fun r => ⟨c.leadName, c.clientName, c.score, some r⟩))

/-- final_leads (lines 90-91): the non-exact lead rows whose normalized
name does not occur as a lead name of the merged fuzzy table. -/
def finalLeads (leads clients : List CellValue) : List CellValue :=
  (filteredRows leads clients).filter (fun r =>
    !decide (normalize_extra r ∈ (fuzzyRows leads clients).map FuzzyRow.leadName))

/-- Outcome of the app body: the else branch of line 118 shows an error
and offers no downloads; the then branch of lines 80-116 offers the
three output tables. -/
inductive RunResult where
  | err
  | ok (cleaned : List CellValue) (fuzzy : List FuzzyRow) (exact : List CellValue)
deriving DecidableEq, Repr

/-- The branch of lines 80-118: pd.DataFrame(matches) has a Lead Name
column and is non-empty exactly when the matches list is non-empty, so
the guard of line 80 succeeds iff some fuzzy candidate was produced;
otherwise st.error is reached and no output table is offered. -/
def runCleanLeads (leads clients : List CellValue) : RunResult :=
  if matchesList leads clients = [] then RunResult.err
  else RunResult.ok (finalLeads leads clients) (fuzzyRows leads clients) (exactRows leads clients)

/-- Adjacent characters are not both whitespace: the shape of a string
in which every whitespace run has been collapsed. -/
def noTwoSpaces (a b : Char) : Prop :=
  isPySpaceChar a = false ∨ isPySpaceChar b = false

/-- The distinct normalized lead keys of a run, in first-occurrence
order. -/
def distinctLeadKeys (leads : List CellValue) : List String :=
  dedupFirst (leads.map normalize_extra)

/-- Classification ExactMatch: the key is in the client key set (line
47). -/
def isExactKey (clients : List CellValue) (k : String) : Bool :=
  decide (k ∈ clientKeys clients)

/-- Classification FuzzyFlagged: the key occurs as the lead side of at
least one accepted match candidate. -/
def isFlaggedKey (leads clients : List CellValue) (k : String) : Bool :=
  decide (k ∈ (matchesList leads clients).map MatchCandidate.leadName)

/-- Classification Distinct: neither an exact match nor fuzzy
flagged. -/
def isDistinctKey (leads clients : List CellValue) (k : String) : Bool :=
  !isExactKey clients k && !isFlaggedKey leads clients k

/-! ## Basic lemmas about the pipeline -/

theorem mem_dedupFirstAux {a : String} :
    ∀ (seen l : List String), a ∈ dedupFirstAux seen l ↔ a ∈ l ∧ a ∉ seen := by
  intro seen l
  induction l generalizing seen with
  | nil => simp [dedupFirstAux]
  | cons x xs ih =>
    by_cases hx : x ∈ seen
    · simp only [dedupFirstAux, if_pos hx, ih, List.mem_cons]
      constructor
      · exact fun h => ⟨Or.inr h.1, h.2⟩
      · rintro ⟨rfl | h1, h2⟩
        · exact absurd hx h2
        · exact ⟨h1, h2⟩
    · simp only [dedupFirstAux, if_neg hx, List.mem_cons, ih]
      by_cases hax : a = x
      · subst hax
        simp [hx]
      · simp [hax]

theorem mem_dedupFirst {a : String} {l : List String} :
    a ∈ dedupFirst l ↔ a ∈ l := by
  simp [dedupFirst, mem_dedupFirstAux]

theorem nodup_dedupFirstAux :
    ∀ (seen l : List String), (dedupFirstAux seen l).Nodup := by
  intro seen l
  induction l generalizing seen with
  | nil => simp [dedupFirstAux]
  | cons x xs ih =>
    by_cases hx : x ∈ seen
    · simpa [dedupFirstAux, if_pos hx] using ih seen
    · rw [dedupFirstAux, if_neg hx]
      refine List.Nodup.cons ?_ (ih (x :: seen))
      intro hmem
      exact ((mem_dedupFirstAux (x :: seen) xs).mp hmem).2 (List.mem_cons_self x seen)

theorem nodup_dedupFirst (l : List String) : (dedupFirst l).Nodup :=
  nodup_dedupFirstAux [] l

theorem length_candidatesFor_le (clients : List CellValue) (n : String) :
    (candidatesFor clients n).length ≤ 3 :=
  le_trans (List.length_filterMap_le _ _)
    (le_trans (List.length_take_le _ _) le_rfl)

theorem mem_candidatesFor {clients : List CellValue} {n : String} {c : MatchCandidate}
    (h : c ∈ candidatesFor clients n) :
    c.leadName = n ∧ 75 ≤ c.score ∧ c.score < 100 ∧ c.leadName ≠ c.clientName := by
  rcases List.mem_filterMap.mp h with ⟨p, _, hp⟩
  by_cases hcond : 75 ≤ p.2 ∧ p.2 < 100 ∧ n ≠ p.1
  · rw [if_pos hcond] at hp
    cases hp
    exact ⟨rfl, hcond.1, hcond.2.1, hcond.2.2⟩
  · rw [if_neg hcond] at hp
    cases hp

/-- Every candidate in the matches list: its lead side is the
normalized name of some non-exact lead row, is absent from the client
key set, scores inside the acceptance band, and differs from its
client side. -/
theorem mem_matchesList {leads clients : List CellValue} {c : MatchCandidate}
    (h : c ∈ matchesList leads clients) :
    c.leadName ∈ (filteredRows leads clients).map normalize_extra ∧
    c.leadName ∉ clientKeys clients ∧
    75 ≤ c.score ∧ c.score < 100 ∧ c.leadName ≠ c.clientName := by
  rcases List.mem_flatMap.mp h with ⟨n, hn, hc⟩
  by_cases hcl : n ∈ clientKeys clients
  · rw [if_pos hcl] at hc
    cases hc
  · rw [if_neg hcl] at hc
    rcases mem_candidatesFor hc with ⟨hname, hs1, hs2, hne⟩
    subst hname
    exact ⟨mem_dedupFirst.mp hn, hcl, hs1, hs2, hne⟩

theorem filter_flatMap_le_three (l : List String) (hn : l.Nodup)
    (g : String → List MatchCandidate)
    (hg : ∀ n c, c ∈ g n → c.leadName = n)
    (hb : ∀ n, (g n).length ≤ 3) (k : String) :
    ((l.flatMap g).filter (fun c => decide (c.leadName = k))).length ≤ 3 := by
  induction l with
  | nil => simp
  | cons x xs ih =>
    rcases List.nodup_cons.mp hn with ⟨hx, hxs⟩
    rw [List.flatMap_cons, List.filter_append, List.length_append]
    by_cases hk : x = k
    · subst hk
      have h2 : (xs.flatMap g).filter (fun c => decide (c.leadName = x)) = [] := by
        rw [List.filter_eq_nil_iff]
        intro c hc
        rcases List.mem_flatMap.mp hc with ⟨n, hn', hcg⟩
        have hcn := hg n c hcg
        simp only [decide_eq_true_eq]
        intro hEq
        exact hx ((hcn ▸ hEq) ▸ hn')
      rw [h2, List.length_nil, Nat.add_zero]
      exact le_trans (List.length_filter_le _ _) (hb x)
    · have h1 : (g x).filter (fun c => decide (c.leadName = k)) = [] := by
        rw [List.filter_eq_nil_iff]
        intro c hc
        simp only [decide_eq_true_eq]
        intro hEq
        exact hk ((hg x c hc) ▸ hEq)
      rw [h1, List.length_nil, Nat.zero_add]
      exact ih hxs

/-- C5: for every run, a normalized lead key that belongs to the client
key set never appears as the lead side of any match candidate. -/
theorem claim_C5 (leads clients : List CellValue) (c : MatchCandidate)
    (h : c ∈ matchesList leads clients) :
    c.leadName ∉ clientKeys clients :=
  (mem_matchesList h).2.1

theorem claim_C5_witness :
    ((⟨"acme corp inc", "acme corp", 900 / 11⟩ : MatchCandidate) ∈
      matchesList [CellValue.str "Acme Corp Inc"] [CellValue.str "Acme Corp"]) ∧
    ("acme corp inc" : String) ∉ clientKeys [CellValue.str "Acme Corp"] :=
  ⟨of_decide_eq_true (by with_unfolding_all rfl),
   claim_C5 [CellValue.str "Acme Corp Inc"] [CellValue.str "Acme Corp"]
     ⟨"acme corp inc", "acme corp", 900 / 11⟩
     (of_decide_eq_true (by with_unfolding_all rfl))⟩

/-- C6: with the threshold constant 75 of line 67, every emitted match
candidate has a score s with 75 <= s < 100; in particular no candidate
with score 100 or more, or below 75, is ever emitted, so a perfect
score is silently skipped rather than classified. -/
theorem claim_C6 (leads clients : List CellValue) (c : MatchCandidate)
    (h : c ∈ matchesList leads clients) :
    75 ≤ c.score ∧ c.score < 100 :=
  ⟨(mem_matchesList h).2.2.1, (mem_matchesList h).2.2.2.1⟩

theorem claim_C6_witness :
    ((⟨"acme corp inc", "acme corp", 900 / 11⟩ : MatchCandidate) ∈
      matchesList [CellValue.str "Acme Corp Inc"] [CellValue.str "Acme Corp"]) ∧
    (75 ≤ (900 / 11 : ℚ) ∧ (900 / 11 : ℚ) < 100) :=
  ⟨of_decide_eq_true (by with_unfolding_all rfl),
   claim_C6 [CellValue.str "Acme Corp Inc"] [CellValue.str "Acme Corp"]
     ⟨"acme corp inc", "acme corp", 900 / 11⟩
     (of_decide_eq_true (by with_unfolding_all rfl))⟩

/-- C7: no distinct lead key contributes more than three match
candidates: the candidates whose lead side equals any fixed key k number
at most three, because process.extract is called with limit 3. -/
theorem claim_C7 (leads clients : List CellValue) (k : String) :
    ((matchesList leads clients).filter (fun c => decide (c.leadName = k))).length ≤ 3 := by
  refine filter_flatMap_le_three _ (nodup_dedupFirst _) _ ?_ ?_ k
  · intro n c hc
    by_cases hcl : n ∈ clientKeys clients
    · rw [if_pos hcl] at hc
      cases hc
    · rw [if_neg hcl] at hc
      exact (mem_candidatesFor hc).1
  · intro n
    by_cases hcl : n ∈ clientKeys clients
    · simp [if_pos hcl]
    · rw [if_neg hcl]
      exact length_candidatesFor_le clients n

theorem length_filter_three {α : Type} (l : List α) (p q : α → Bool)
    (h : ∀ x, q x = true → p x = false) :
    (l.filter p).length + (l.filter q).length
      + (l.filter (fun x => !p x && !q x)).length = l.length := by
  induction l with
  | nil => simp
  | cons x xs ih =>
    cases hp : p x <;> cases hq : q x
    · simp only [List.filter_cons, hp, hq]
      simp only [Bool.not_false, Bool.true_and]
      simp
      omega
    · simp only [List.filter_cons, hp, hq]
      simp
      omega
    · simp only [List.filter_cons, hp, hq]
      simp
      omega
    · exact absurd (h x hq) (by simp [hp])

theorem flagged_not_exact (leads clients : List CellValue) (k : String)
    (h : isFlaggedKey leads clients k = true) : isExactKey clients k = false := by
  rcases List.mem_map.mp (of_decide_eq_true h) with ⟨c, hc, hck⟩
  have := (mem_matchesList hc).2.1
  rw [isExactKey, decide_eq_false_iff_not]
  exact fun hk => this (hck ▸ hk)

/-- C4: the three classifications partition the distinct lead keys:
the class sizes add up to the number of distinct keys, and no key lies
in two classes. -/
theorem claim_C4 (leads clients : List CellValue) :
    ((distinctLeadKeys leads).filter (isExactKey clients)).length
      + ((distinctLeadKeys leads).filter (isFlaggedKey leads clients)).length
      + ((distinctLeadKeys leads).filter (isDistinctKey leads clients)).length
      = (distinctLeadKeys leads).length
    ∧ (distinctLeadKeys leads).filter
        (fun k => isExactKey clients k && isFlaggedKey leads clients k) = []
    ∧ (distinctLeadKeys leads).filter
        (fun k => isExactKey clients k && isDistinctKey leads clients k) = []
    ∧ (distinctLeadKeys leads).filter
        (fun k => isFlaggedKey leads clients k && isDistinctKey leads clients k) = [] := by
  refine ⟨?_, ?_, ?_, ?_⟩
  · have h3 := length_filter_three (distinctLeadKeys leads) (isExactKey clients)
      (isFlaggedKey leads clients) (flagged_not_exact leads clients)
    simpa [isDistinctKey] using h3
  · rw [List.filter_eq_nil_iff]
    intro k _ hk
    rcases Bool.and_eq_true_iff.mp hk with ⟨h1, h2⟩
    rw [flagged_not_exact leads clients k h2] at h1
    cases h1
  · rw [List.filter_eq_nil_iff]
    intro k _ hk
    rcases Bool.and_eq_true_iff.mp hk with ⟨h1, h2⟩
    rcases Bool.and_eq_true_iff.mp h2 with ⟨h3, _⟩
    rw [h1] at h3
    cases h3
  · rw [List.filter_eq_nil_iff]
    intro k _ hk
    rcases Bool.and_eq_true_iff.mp hk with ⟨h1, h2⟩
    rcases Bool.and_eq_true_iff.mp h2 with ⟨_, h4⟩
    rw [h1] at h4
    cases h4

theorem matchesList_join_nonempty {leads clients : List CellValue} {c : MatchCandidate}
    (h : c ∈ matchesList leads clients) :
    leads.filter (fun r => decide (normalize_extra r = c.leadName)) ≠ [] := by
  rcases List.mem_map.mp (mem_matchesList h).1 with ⟨r, hr, hrn⟩
  have hrl : r ∈ leads := List.mem_of_mem_filter hr
  intro hnil
  have : r ∈ leads.filter (fun r => decide (normalize_extra r = c.leadName)) :=
    List.mem_filter.mpr ⟨hrl, decide_eq_true hrn⟩
  rw [hnil] at this
  cases this

/-- C3 counterexample: with two duplicate lead rows sharing one
normalized key and a single in-band candidate for that key, the merged
fuzzy-review table holds two rows, not one row per match candidate. -/
theorem claim_C3_counterexample :
    (matchesList [CellValue.str "Acme Corp Inc", CellValue.str "Acme Corp Inc"]
        [CellValue.str "Acme Corp"]).length = 1 ∧
    (fuzzyRows [CellValue.str "Acme Corp Inc", CellValue.str "Acme Corp Inc"]
        [CellValue.str "Acme Corp"]).length = 2 :=
  ⟨by with_unfolding_all rfl, by with_unfolding_all rfl⟩

/-- C3 amended: the fuzzy-review table holds one row per pair of an
accepted match candidate and a lead row carrying that candidates lead
key; with no duplicate lead rows per key this is one row per
candidate. -/
theorem claim_C3_amended (leads clients : List CellValue) :
    (fuzzyRows leads clients).length
      = ((matchesList leads clients).map
          (fun c => leads.countP (fun r => decide (normalize_extra r = c.leadName)))).sum := by
  rw [fuzzyRows, List.length_flatMap]
  congr 1
  refine List.map_congr_left ?_
  intro c hc
  simp only [Function.comp_apply]
  rcases hf : leads.filter (fun r => decide (normalize_extra r = c.leadName)) with _ | ⟨r, rs⟩
  · exact absurd hf (matchesList_join_nonempty hc)
  · simp [List.countP_eq_length_filter, hf]

/-- C1: on a run producing zero fuzzy candidates (empty leads table, or
all leads exact matches), the script reaches the st.error branch of
line 118 and offers none of the three output tables, contradicting the
requirement that such runs produce valid empty outputs without error. -/
theorem claim_C1 :
    runCleanLeads [] [CellValue.str "Acme Corp"] = RunResult.err ∧
    runCleanLeads [CellValue.str "Acme Corp"] [CellValue.str "ACME CORP."] = RunResult.err :=
  ⟨by with_unfolding_all rfl, by with_unfolding_all rfl⟩

/-- C2 counterexample: the normalizer deletes punctuation instead of
substituting a space, so the two words of Acme-Corp are merged into the
single token acmecorp. -/
theorem claim_C2_counterexample :
    normalize_extra (CellValue.str "Acme-Corp") = "acmecorp" ∧
    normalize_extra (CellValue.str "Acme-Corp") ≠ normalize_extra (CellValue.str "Acme Corp") :=
  ⟨by decide, by decide⟩

/-- C2 amended: the substitution of line 17 deletes every character
that is neither a word character nor whitespace (the output is the
sublist of exactly the word and whitespace characters), so two words
separated only by punctuation are merged into one token after
normalization. -/
theorem claim_C2_amended :
    (∀ l : List Char, List.Sublist (removeNonWord l) l
      ∧ (removeNonWord l).length = l.countP (fun c => isPyWordChar c || isPySpaceChar c)) ∧
    normalize_extra (CellValue.str "Acme-Corp") = "acmecorp" ∧
    normalize_extra (CellValue.str "Acme-Corp") ≠ "acme corp" := by
  refine ⟨fun l => ⟨List.filter_sublist l, ?_⟩, by decide, by decide⟩
  rw [removeNonWord, List.countP_eq_length_filter]

/-- C8: the normalizer identifies names differing only in case, accents
and punctuation, on both spec examples. -/
theorem claim_C8 :
    normalize_extra (CellValue.str "Acme, Corp.") = normalize_extra (CellValue.str "ACME CORP") ∧
    normalize_extra (CellValue.str "Café S.A.") = normalize_extra (CellValue.str "cafe sa") :=
  ⟨by decide, by decide⟩

/-- C10: when some client cell normalizes to the empty key, every lead
row normalizing to the empty key is an exact match: it lands in the
exact-matches output, is excluded from the remainder, and the empty key
never reaches the similarity matcher. -/
theorem claim_C10 (leads clients : List CellValue) (r : CellValue)
    (hc : ∃ c ∈ clients, normalize_extra c = "")
    (hr : r ∈ leads) (hnorm : normalize_extra r = "") :
    r ∈ exactRows leads clients ∧ r ∉ filteredRows leads clients ∧
    ∀ c ∈ matchesList leads clients, c.leadName ≠ "" := by
  have hmem : ("" : String) ∈ clientKeys clients := by
    rcases hc with ⟨c, hcin, hcn⟩
    exact hcn ▸ List.mem_map_of_mem normalize_extra hcin
  refine ⟨?_, ?_, ?_⟩
  · exact List.mem_filter.mpr ⟨hr, by rw [hnorm]; exact decide_eq_true hmem⟩
  · intro hmemF
    have h2 := (List.mem_filter.mp hmemF).2
    rw [hnorm] at h2
    rw [decide_eq_true hmem] at h2
    cases h2
  · intro c hcm hEq
    exact (mem_matchesList hcm).2.1 (hEq ▸ hmem)

theorem claim_C10_witness :
    (CellValue.str "!!!") ∈ exactRows [CellValue.str "!!!"] [CellValue.nonStr] ∧
    (CellValue.str "!!!") ∉ filteredRows [CellValue.str "!!!"] [CellValue.nonStr] ∧
    ∀ c ∈ matchesList [CellValue.str "!!!"] [CellValue.nonStr], c.leadName ≠ "" :=
  claim_C10 [CellValue.str "!!!"] [CellValue.nonStr] (CellValue.str "!!!")
    ⟨CellValue.nonStr, by simp, rfl⟩ (by simp) (by decide)

/-! ## Character lemmas for idempotence of the normalizer -/

theorem lowerChar_pairs (c : Char) :
    (c, lowerChar c) ∈ upperLowerPairs ∨ lowerChar c = c := by
  rcases hf : upperLowerPairs.find? (fun pr => pr.1 == c) with _ | pr
  · right
    unfold lowerChar
    rw [hf]
  · left
    unfold lowerChar
    rw [hf]
    have h2 : pr.1 = c := by
      have h3 := List.find?_some hf
      simpa using h3
    have h1 := List.mem_of_find?_eq_some hf
    rw [← h2]
    simpa using h1

theorem pairs_nonspace : ∀ pr ∈ upperLowerPairs,
    isPySpaceChar pr.1 = false ∧ isPySpaceChar pr.2 = false := by decide

theorem pairs_word : ∀ pr ∈ upperLowerPairs, isPyWordChar pr.2 = true := by decide

theorem pairs_ascii : ∀ pr ∈ upperLowerPairs, pr.2.toNat < 128 := by decide

theorem pairs_lower_fixed : ∀ pr ∈ upperLowerPairs, lowerChar pr.2 = pr.2 := by decide

theorem accent_ascii : ∀ pr ∈ accentFoldTable, pr.2.toNat < 128 := by decide

theorem lowerChar_space (c : Char) :
    isPySpaceChar (lowerChar c) = isPySpaceChar c := by
  rcases lowerChar_pairs c with h | h
  · have h2 := pairs_nonspace (c, lowerChar c) h
    have ha : isPySpaceChar c = false := h2.1
    have hb : isPySpaceChar (lowerChar c) = false := h2.2
    rw [ha, hb]
  · rw [h]

theorem lowerChar_word {c : Char} (h : isPyWordChar c = true) :
    isPyWordChar (lowerChar c) = true := by
  rcases lowerChar_pairs c with hp | hp
  · exact pairs_word (c, lowerChar c) hp
  · rw [hp]
    exact h

theorem lowerChar_ascii {c : Char} (h : c.toNat < 128) :
    (lowerChar c).toNat < 128 := by
  rcases lowerChar_pairs c with hp | hp
  · exact pairs_ascii (c, lowerChar c) hp
  · rw [hp]
    exact h

theorem lowerChar_idem (c : Char) : lowerChar (lowerChar c) = lowerChar c := by
  rcases lowerChar_pairs c with hp | hp
  · exact pairs_lower_fixed (c, lowerChar c) hp
  · rw [hp, hp]

theorem asciiFoldChar_ascii {c d : Char} (hd : d ∈ asciiFoldChar c) :
    d.toNat < 128 := by
  unfold asciiFoldChar at hd
  by_cases h : c.toNat < 128
  · rw [if_pos h] at hd
    rw [List.mem_singleton.mp hd]
    exact h
  · rw [if_neg h] at hd
    rcases hf : accentFoldTable.find? (fun pr => pr.1 == c) with _ | pr
    · rw [hf] at hd
      cases hd
    · rw [hf] at hd
      rw [List.mem_singleton.mp hd]
      exact accent_ascii _ (List.mem_of_find?_eq_some hf)

theorem asciiFoldChar_of_ascii {c : Char} (h : c.toNat < 128) :
    asciiFoldChar c = [c] := by
  unfold asciiFoldChar
  rw [if_pos h]

theorem asciiFold_eq_self {l : List Char} (h : ∀ c ∈ l, c.toNat < 128) :
    asciiFold l = l := by
  induction l with
  | nil => rfl
  | cons c rest ih =>
    rw [asciiFold, List.flatMap_cons,
      asciiFoldChar_of_ascii (h c (List.mem_cons_self c rest))]
    have := ih (fun d hd => h d (List.mem_cons_of_mem c hd))
    rw [asciiFold] at this
    rw [this]
    rfl

theorem collapseAux_nil (b : Bool) : collapseAux b [] = [] := rfl

theorem collapseAux_cons (b : Bool) (d : Char) (rest : List Char) :
    collapseAux b (d :: rest) =
      if isPySpaceChar d then
        (if b then collapseAux true rest else ' ' :: collapseAux true rest)
      else d :: collapseAux false rest := rfl

theorem mem_collapseAux {c : Char} :
    ∀ (l : List Char) (b : Bool), c ∈ collapseAux b l →
      c = ' ' ∨ (c ∈ l ∧ isPySpaceChar c = false) := by
  intro l
  induction l with
  | nil =>
    intro b hc
    rw [collapseAux_nil] at hc
    cases hc
  | cons d rest ih =>
    intro b hc
    rw [collapseAux_cons] at hc
    by_cases hd : isPySpaceChar d = true
    · rw [if_pos hd] at hc
      cases b with
      | true =>
        rw [if_pos rfl] at hc
        rcases ih true hc with h | ⟨h1, h2⟩
        · exact Or.inl h
        · exact Or.inr ⟨List.mem_cons_of_mem d h1, h2⟩
      | false =>
        rw [if_neg (by simp)] at hc
        rcases List.mem_cons.mp hc with h | h
        · exact Or.inl h
        · rcases ih true h with h' | ⟨h1, h2⟩
          · exact Or.inl h'
          · exact Or.inr ⟨List.mem_cons_of_mem d h1, h2⟩
    · rw [if_neg hd] at hc
      rcases List.mem_cons.mp hc with h | h
      · subst h
        exact Or.inr ⟨List.mem_cons_self c rest, by simpa using hd⟩
      · rcases ih false h with h' | ⟨h1, h2⟩
        · exact Or.inl h'
        · exact Or.inr ⟨List.mem_cons_of_mem d h1, h2⟩

theorem collapseAux_true_head :
    ∀ (l : List Char) (c : Char) (cs : List Char),
      collapseAux true l = c :: cs → isPySpaceChar c = false := by
  intro l
  induction l with
  | nil =>
    intro c cs h
    rw [collapseAux_nil] at h
    cases h
  | cons d rest ih =>
    intro c cs h
    rw [collapseAux_cons] at h
    by_cases hd : isPySpaceChar d = true
    · rw [if_pos hd, if_pos rfl] at h
      exact ih c cs h
    · rw [if_neg hd] at h
      injection h with h1 h2
      rw [← h1]
      simpa using hd

theorem chain_collapseAux :
    ∀ (l : List Char) (b : Bool), List.Chain' noTwoSpaces (collapseAux b l) := by
  intro l
  induction l with
  | nil =>
    intro b
    rw [collapseAux_nil]
    exact List.chain'_nil
  | cons d rest ih =>
    intro b
    rw [collapseAux_cons]
    by_cases hd : isPySpaceChar d = true
    · rw [if_pos hd]
      cases b with
      | true =>
        rw [if_pos rfl]
        exact ih true
      | false =>
        rw [if_neg (by simp)]
        rw [List.chain'_cons']
        refine ⟨?_, ih true⟩
        intro y hy
        rcases hh : collapseAux true rest with _ | ⟨c0, cs0⟩
        · rw [hh] at hy
          cases hy
        · rw [hh] at hy
          have hy0 : c0 = y := by simpa using hy
          exact Or.inr (hy0 ▸ collapseAux_true_head rest c0 cs0 hh)
    · rw [if_neg hd]
      rw [List.chain'_cons']
      exact ⟨fun y _ => Or.inl (by simpa using hd), ih false⟩

theorem collapseAux_eq_self :
    ∀ l : List Char, List.Chain' noTwoSpaces l →
      (∀ c ∈ l, isPySpaceChar c = true → c = ' ') → collapseAux false l = l := by
  intro l
  induction l with
  | nil => intro _ _; rfl
  | cons d rest ih =>
    intro hch hsp
    rw [collapseAux_cons]
    have hrest : collapseAux false rest = rest :=
      ih hch.tail (fun c hc hs => hsp c (List.mem_cons_of_mem d hc) hs)
    by_cases hd : isPySpaceChar d = true
    · rw [if_pos hd, if_neg (by simp)]
      have hd' : d = ' ' := hsp d (List.mem_cons_self d rest) hd
      rcases rest with _ | ⟨e, rest2⟩
      · rw [collapseAux_nil, hd']
      · have he : isPySpaceChar e = false := by
          rcases (List.chain'_cons.mp hch).1 with h | h
          · rw [hd] at h
            cases h
          · exact h
        rw [collapseAux_cons, if_neg (by simp [he])]
        rw [collapseAux_cons, if_neg (by simp [he])] at hrest
        injection hrest with _ h2
        rw [h2, hd']
    · rw [if_neg hd, hrest]

theorem head_dropWhile {p : Char → Bool} :
    ∀ (l : List Char) (c : Char), (l.dropWhile p).head? = some c → p c = false := by
  intro l
  induction l with
  | nil =>
    intro c h
    cases h
  | cons d rest ih =>
    intro c h
    rw [List.dropWhile_cons] at h
    by_cases hd : p d = true
    · rw [if_pos hd] at h
      exact ih c h
    · rw [if_neg hd] at h
      have hdc : d = c := by simpa using h
      rw [← hdc]
      simpa using hd

theorem dropWhile_eq_self {p : Char → Bool} {l : List Char}
    (h : ∀ c, l.head? = some c → p c = false) : l.dropWhile p = l := by
  cases l with
  | nil => rfl
  | cons d rest =>
    rw [List.dropWhile_cons, if_neg]
    simp [h d rfl]

theorem chain'_dropWhile {R : Char → Char → Prop} {p : Char → Bool} :
    ∀ {l : List Char}, List.Chain' R l → List.Chain' R (l.dropWhile p) := by
  intro l h
  induction l with
  | nil => exact h
  | cons d rest ih =>
    rw [List.dropWhile_cons]
    by_cases hd : p d = true
    · rw [if_pos hd]
      exact ih h.tail
    · rw [if_neg hd]
      exact h

theorem getLast?_of_suffix {l1 l2 : List Char} (h : l1 <:+ l2) (hne : l1 ≠ []) :
    l2.getLast? = l1.getLast? := by
  rcases h with ⟨t, rfl⟩
  rw [List.getLast?_append_of_ne_nil t hne]

theorem mem_stripWs {c : Char} {l : List Char} (h : c ∈ stripWs l) : c ∈ l := by
  rw [stripWs, List.mem_reverse] at h
  have h1 : c ∈ (l.dropWhile isPySpaceChar).reverse :=
    ((List.dropWhile_suffix _).sublist.subset) h
  rw [List.mem_reverse] at h1
  exact (List.dropWhile_suffix _).sublist.subset h1

theorem chain'_stripWs {l : List Char} (h : List.Chain' noTwoSpaces l) :
    List.Chain' noTwoSpaces (stripWs l) := by
  have hsymm : ∀ a b : Char, noTwoSpaces a b → flip noTwoSpaces a b :=
    fun a b hab => Or.symm hab
  rw [stripWs]
  have h1 : List.Chain' noTwoSpaces (l.dropWhile isPySpaceChar) := chain'_dropWhile h
  have h2 : List.Chain' noTwoSpaces (l.dropWhile isPySpaceChar).reverse :=
    List.chain'_reverse.mpr (h1.imp hsymm)
  have h3 : List.Chain' noTwoSpaces
      ((l.dropWhile isPySpaceChar).reverse.dropWhile isPySpaceChar) :=
    chain'_dropWhile h2
  exact List.chain'_reverse.mpr (h3.imp hsymm)

theorem head_stripWs {l : List Char} {c : Char} (h : (stripWs l).head? = some c) :
    isPySpaceChar c = false := by
  rw [stripWs, List.head?_reverse] at h
  have hne : (l.dropWhile isPySpaceChar).reverse.dropWhile isPySpaceChar ≠ [] := by
    intro h0
    rw [h0] at h
    cases h
  have hsuf := List.dropWhile_suffix (l := (l.dropWhile isPySpaceChar).reverse) isPySpaceChar
  have h2 := (getLast?_of_suffix hsuf hne).trans h
  rw [List.getLast?_reverse] at h2
  exact head_dropWhile _ c h2

theorem getLast_stripWs {l : List Char} {c : Char} (h : (stripWs l).getLast? = some c) :
    isPySpaceChar c = false := by
  rw [stripWs, List.getLast?_reverse] at h
  exact head_dropWhile _ c h

theorem stripWs_eq_self {l : List Char}
    (h1 : ∀ c, l.head? = some c → isPySpaceChar c = false)
    (h2 : ∀ c, l.getLast? = some c → isPySpaceChar c = false) : stripWs l = l := by
  rw [stripWs, dropWhile_eq_self h1,
    dropWhile_eq_self (fun c hc => h2 c (by rwa [List.head?_reverse] at hc))]
  exact List.reverse_reverse l

theorem pipeline_fixed_of (y : List Char)
    (hy_ws : ∀ c ∈ y, (isPyWordChar c || isPySpaceChar c) = true)
    (hy_ascii : ∀ c ∈ y, c.toNat < 128)
    (hy_space : ∀ c ∈ y, isPySpaceChar c = true → c = ' ')
    (hy_chain : List.Chain' noTwoSpaces y)
    (hy_head : ∀ c, y.head? = some c → isPySpaceChar c = false)
    (hy_last : ∀ c, y.getLast? = some c → isPySpaceChar c = false)
    (hy_lower : ∀ c ∈ y, lowerChar c = c) :
    (stripWs (collapseSpaces (removeNonWord (asciiFold y)))).map lowerChar = y := by
  have e1 : asciiFold y = y := asciiFold_eq_self hy_ascii
  have e2 : removeNonWord y = y := by
    rw [removeNonWord]
    exact List.filter_eq_self.mpr hy_ws
  have e3 : collapseSpaces y = y := by
    rw [collapseSpaces]
    exact collapseAux_eq_self y hy_chain hy_space
  have e4 : stripWs y = y := stripWs_eq_self hy_head hy_last
  have e5 : y.map lowerChar = y := by
    have h1 : y.map lowerChar = y.map id := List.map_congr_left hy_lower
    rw [h1, List.map_id]
  rw [e1, e2, e3, e4, e5]

theorem normalize_str_idem (w : List Char)
    (hww : ∀ c ∈ w, (isPyWordChar c || isPySpaceChar c) = true)
    (hwa : ∀ c ∈ w, c.toNat < 128) :
    (stripWs (collapseSpaces (removeNonWord (asciiFold
      ((stripWs (collapseSpaces w)).map lowerChar))))).map lowerChar
      = (stripWs (collapseSpaces w)).map lowerChar := by
  have hz_mem : ∀ c ∈ stripWs (collapseSpaces w),
      c = ' ' ∨ (c ∈ w ∧ isPySpaceChar c = false) := by
    intro c hc
    have h1 : c ∈ collapseSpaces w := mem_stripWs hc
    rw [collapseSpaces] at h1
    exact mem_collapseAux w false h1
  have hz_space : ∀ c ∈ stripWs (collapseSpaces w), isPySpaceChar c = true → c = ' ' := by
    intro c hc hs
    rcases hz_mem c hc with h | ⟨_, h2⟩
    · exact h
    · rw [hs] at h2
      cases h2
  have hz_ws : ∀ c ∈ stripWs (collapseSpaces w),
      (isPyWordChar c || isPySpaceChar c) = true := by
    intro c hc
    rcases hz_mem c hc with h | ⟨h1, _⟩
    · subst h
      decide
    · exact hww c h1
  have hz_ascii : ∀ c ∈ stripWs (collapseSpaces w), c.toNat < 128 := by
    intro c hc
    rcases hz_mem c hc with h | ⟨h1, _⟩
    · subst h
      decide
    · exact hwa c h1
  have hz_chain : List.Chain' noTwoSpaces (stripWs (collapseSpaces w)) :=
    chain'_stripWs (chain_collapseAux w false)
  have hz_head : ∀ c, (stripWs (collapseSpaces w)).head? = some c →
      isPySpaceChar c = false := fun c h => head_stripWs h
  have hz_last : ∀ c, (stripWs (collapseSpaces w)).getLast? = some c →
      isPySpaceChar c = false := fun c h => getLast_stripWs h
  have hy_mem : ∀ c ∈ (stripWs (collapseSpaces w)).map lowerChar,
      ∃ c0, c0 ∈ stripWs (collapseSpaces w) ∧ c = lowerChar c0 := by
    intro c hc
    rcases List.mem_map.mp hc with ⟨c0, h0, hEq⟩
    exact ⟨c0, h0, hEq.symm⟩
  apply pipeline_fixed_of
  · intro c hc
    rcases hy_mem c hc with ⟨c0, h0, rfl⟩
    have h1 := hz_ws c0 h0
    simp only [Bool.or_eq_true] at h1
    rcases h1 with h | h
    · rw [Bool.or_eq_true]
      exact Or.inl (lowerChar_word h)
    · rw [hz_space c0 h0 h]
      decide
  · intro c hc
    rcases hy_mem c hc with ⟨c0, h0, rfl⟩
    exact lowerChar_ascii (hz_ascii c0 h0)
  · intro c hc hs
    rcases hy_mem c hc with ⟨c0, h0, rfl⟩
    rw [lowerChar_space] at hs
    rw [hz_space c0 h0 hs]
    decide
  · refine (List.chain'_map lowerChar).mpr (hz_chain.imp ?_)
    intro a b hab
    unfold noTwoSpaces at hab ⊢
    rw [lowerChar_space, lowerChar_space]
    exact hab
  · intro c h
    rw [List.head?_map] at h
    rcases Option.map_eq_some'.mp h with ⟨c0, h0, hEq⟩
    rw [← hEq, lowerChar_space]
    exact hz_head c0 h0
  · intro c h
    rw [List.getLast?_map] at h
    rcases Option.map_eq_some'.mp h with ⟨c0, h0, hEq⟩
    rw [← hEq, lowerChar_space]
    exact hz_last c0 h0
  · intro c hc
    rcases hy_mem c hc with ⟨c0, h0, rfl⟩
    exact lowerChar_idem c0

/-- C9: the normalizer is deterministic, and idempotent on its own
image: renormalizing any normalized value leaves it unchanged. -/
theorem claim_C9 :
    (∀ v : CellValue, normalize_extra v = normalize_extra v) ∧
    (∀ v : CellValue, normalize_extra (CellValue.str (normalize_extra v)) = normalize_extra v) := by
  refine ⟨fun v => rfl, fun v => ?_⟩
  cases v with
  | nonStr => decide
  | str s =>
    have hww : ∀ c ∈ removeNonWord (asciiFold s.data),
        (isPyWordChar c || isPySpaceChar c) = true := by
      intro c hc
      rw [removeNonWord] at hc
      exact (List.mem_filter.mp hc).2
    have hwa : ∀ c ∈ removeNonWord (asciiFold s.data), c.toNat < 128 := by
      intro c hc
      rw [removeNonWord] at hc
      have h1 : c ∈ asciiFold s.data := List.mem_of_mem_filter hc
      rw [asciiFold] at h1
      rcases List.mem_flatMap.mp h1 with ⟨d, _, hd⟩
      exact asciiFoldChar_ascii hd
    exact congrArg String.mk (normalize_str_idem (removeNonWord (asciiFold s.data)) hww hwa)

